import Mathlib

/-!
Verification model of `pulldown-cmark-py`: a Python wrapper around a
CommonMark renderer with optional dialect extensions, a syntax
highlighter with a theme catalogue, and pluggable code/math callbacks.
The native extension module `pulldown_cmark.pulldown_cmark` is not part
of the Python sources; its behaviour is modelled from the specification
and pinned by the expected outputs of the test suite
(`tests/test_render.py`, `tests/test_css.py`).  Documents and HTML are
modelled as lists of characters; every definition is executable.
-/

namespace PulldownCmark

/-- Boolean test: does character `c` occur in the list. -/
def hasChar (c : Char) : List Char → Bool
  | [] => false
  | x :: r => x == c || hasChar c r

/-- Boolean test: does the two-character sequence `a b` occur in the list. -/
def hasSub2 (a b : Char) : List Char → Bool
  | x :: y :: r => (x == a && y == b) || hasSub2 a b (y :: r)
  | _ => false

/-- Boolean test: is `p` an initial segment of the second list. -/
def leadsWith : List Char → List Char → Bool
  | [], _ => true
  | _ :: _, [] => false
  | p :: ps, c :: cs => p == c && leadsWith ps cs

/-- Boolean test: does the pattern `pat` occur as a contiguous segment. -/
def containsSeg (pat : List Char) : List Char → Bool
  | [] => pat.isEmpty
  | c :: t => leadsWith pat (c :: t) || containsSeg pat t

/-- Prepend a character to the first piece of a piece list. -/
def consHead (c : Char) : List (List Char) → List (List Char)
  | [] => [[c]]
  | h :: t => (c :: h) :: t

/-- Split a character list at every occurrence of the separator `d`. -/
def splitOnChar (d : Char) : List Char → List (List Char)
  | [] => [[]]
  | c :: r => if c == d then [] :: splitOnChar d r else consHead c (splitOnChar d r)

/-- Join pieces, interposing the separator `d`. -/
def joinOn (d : Char) : List (List Char) → List Char
  | [] => []
  | [p] => p
  | p :: ps => p ++ d :: joinOn d ps

/-- Split a character list at every occurrence of the two-character separator `a b`. -/
def splitSub2 (a b : Char) : List Char → List (List Char)
  | [] => [[]]
  | [c] => [[c]]
  | x :: y :: r =>
    if x == a && y == b then [] :: splitSub2 a b r
    else consHead x (splitSub2 a b (y :: r))

/-- Split a document into its lines. -/
def splitLines (doc : List Char) : List (List Char) :=
  splitOnChar '\n' doc

/-- Join lines back into a document. -/
def joinLines (lines : List (List Char)) : List Char :=
  joinOn '\n' lines

theorem consHead_ne_nil (c : Char) (ps : List (List Char)) : consHead c ps ≠ [] := by
  cases ps <;> simp [consHead]

theorem splitOnChar_ne_nil (d : Char) (l : List Char) : splitOnChar d l ≠ [] := by
  cases l with
  | nil => simp [splitOnChar]
  | cons c r =>
    simp only [splitOnChar]
    by_cases h : (c == d) = true
    · simp [h]
    · simp only [h]
      simp only [Bool.false_eq_true, if_false]
      exact consHead_ne_nil c _

theorem splitSub2_ne_nil (a b : Char) (l : List Char) : splitSub2 a b l ≠ [] := by
  match l with
  | [] => simp [splitSub2]
  | [c] => simp [splitSub2]
  | x :: y :: r =>
    simp only [splitSub2]
    by_cases h : (x == a && y == b) = true
    · simp [h]
    · simp only [h]
      simp only [Bool.false_eq_true, if_false]
      exact consHead_ne_nil x _

theorem joinOn_consHead (d : Char) (c : Char) (ps : List (List Char)) :
    joinOn d (consHead c ps) = c :: joinOn d ps := by
  cases ps with
  | nil => simp [consHead, joinOn]
  | cons h t =>
    cases t with
    | nil => simp [consHead, joinOn]
    | cons h2 t2 => simp [consHead, joinOn]

theorem joinOn_splitOnChar (d : Char) : ∀ l, joinOn d (splitOnChar d l) = l
  | [] => rfl
  | c :: r => by
    simp only [splitOnChar]
    by_cases h : (c == d) = true
    · have hcd : c = d := by simpa using h
      simp only [h, if_true]
      cases hsp : splitOnChar d r with
      | nil => exact absurd hsp (splitOnChar_ne_nil d r)
      | cons p ps =>
        have ih := joinOn_splitOnChar d r
        rw [hsp] at ih
        simp [joinOn, ih, hcd]
    · simp only [h, Bool.false_eq_true, if_false]
      rw [joinOn_consHead]
      rw [joinOn_splitOnChar d r]

theorem joinLines_splitLines (doc : List Char) : joinLines (splitLines doc) = doc :=
  joinOn_splitOnChar '\n' doc

theorem splitOnChar_single (d : Char) : ∀ l, hasChar d l = false → splitOnChar d l = [l]
  | [], _ => rfl
  | c :: r, h => by
    simp only [hasChar, Bool.or_eq_false_iff] at h
    have h1 : (c == d) = false := by
      cases hcd : (c == d) with
      | false => rfl
      | true =>
        have : c = d := by simpa using hcd
        subst this
        simp at h
    simp only [splitOnChar, h1, Bool.false_eq_true, if_false]
    rw [splitOnChar_single d r h.2, consHead]

theorem hasSub2_of_hasChar (a b : Char) : ∀ l, hasChar a l = false → hasSub2 a b l = false
  | [], _ => rfl
  | [_], _ => rfl
  | x :: y :: r, h => by
    simp only [hasChar, Bool.or_eq_false_iff] at h
    simp only [hasSub2, Bool.or_eq_false_iff]
    refine ⟨?_, ?_⟩
    · simp [h.1]
    · exact hasSub2_of_hasChar a b (y :: r) (by simp [hasChar, h.2.1, h.2.2])

theorem splitSub2_single (a b : Char) : ∀ l, hasSub2 a b l = false → splitSub2 a b l = [l]
  | [], _ => rfl
  | [_], _ => rfl
  | x :: y :: r, h => by
    simp only [hasSub2, Bool.or_eq_false_iff] at h
    simp only [splitSub2, h.1, Bool.false_eq_true, if_false]
    rw [splitSub2_single a b (y :: r) h.2, consHead]

/-- Modelled from the spec: the error taxonomy of §7, exported by
`pulldown_cmark/__init__.py` as the `PulldownCmarkError` subclasses
(the concrete exception classes live in the missing native module). -/
inductive PulldownCmarkError where
  | cannotConfigMath
  | cannotGetCss
  | cannotHighlight
  | cannotRenderMath
  | missingTheme (name : String)
  | unknownLanguage (name : String)
  | unknownTheme (name : String)
  | badCallback (msg : List Char)
deriving DecidableEq

/-- Modelled from the spec: the math hook of the Configuration
(`math: off|on|callback`); a callback takes the span body and the
display-mode flag and may fail. -/
inductive MathCfg where
  | off
  | on
  | callback (f : List Char → Bool → Except (List Char) (List Char))

/-- Modelled from the spec: the code hook of the Configuration
(`code: off|on(theme)|callback`); a callback takes the block body and
the optional language name and may fail. -/
inductive CodeCfg where
  | off
  | on (theme : String)
  | callback (f : List Char → Option String → Except (List Char) (List Char))

/-- Modelled from the spec: the immutable set of configuration toggles
(`Options` in `pulldown_cmark/__init__.py`, implemented by the missing
native module). -/
structure Options where
  tables : Bool := false
  footnotes : Bool := false
  old_footnotes : Bool := false
  strikethrough : Bool := false
  tasklists : Bool := false
  smart_punctuation : Bool := false
  heading_attributes : Bool := false
  gfm : Bool := false
  definition_list : Bool := false
  superscript : Bool := false
  subscript : Bool := false
  wikilinks : Bool := false
  math : MathCfg := .off
  code : CodeCfg := .off

/-- Modelled from the spec: a configuration is well formed when neither
pair of mutually exclusive toggles (`footnotes`/`old_footnotes`, and
`subscript`/`strikethrough`, which share the tilde delimiter) is
requested together (§3 invariant and §9 open question). -/
def validB (o : Options) : Bool :=
  !(o.footnotes && o.old_footnotes) && !(o.subscript && o.strikethrough)

/-- A fragment of inline-scanned text: a literal character or a math
span (body, display-mode flag). -/
inductive Piece where
  | chr (c : Char)
  | span (body : List Char) (display : Bool)
deriving DecidableEq

/-- Is the piece a math span. -/
def Piece.isSpan : Piece → Bool
  | .chr _ => false
  | .span _ _ => true

/-- Turn plain characters into literal pieces. -/
def chrs (l : List Char) : List Piece :=
  l.map Piece.chr

/-- State of the math scanner while walking the dollar-separated pieces
of a document: `plain` (head piece is plain text), `afterD` (every piece
is preceded by one dollar), `inDisp` (inside a display-math body whose
pieces so far are `acc`). -/
inductive MState where
  | plain
  | afterD
  | inDisp (acc : List (List Char))

/-- Modelled from the spec: the math-span recognizer.  The document was
split at every dollar sign; this walks the remaining pieces.  A single
dollar opens an inline span closed by the next dollar; two adjacent
dollars open a display span closed by the next two adjacent dollars; an
unclosed delimiter degrades to literal text (§4.1 failure policy). -/
def mathsGo : MState → List (List Char) → List Piece
  | .plain, [] => []
  | .plain, q :: qs => chrs q ++ mathsGo .afterD qs
  | .afterD, [] => []
  | .afterD, p :: ps =>
    if p.isEmpty then
      match ps with
      | [] => [.chr '$']
      | q :: qs => mathsGo (.inDisp [q]) qs
    else
      match ps with
      | [] => .chr '$' :: chrs p
      | _ :: _ => .span p false :: mathsGo .plain ps
  | .inDisp acc, [] => chrs ('$' :: '$' :: joinOn '$' acc)
  | .inDisp acc, p :: ps =>
    if p.isEmpty then
      match ps with
      | [] => chrs ('$' :: '$' :: joinOn '$' acc ++ ['$'])
      | _ :: _ => .span (joinOn '$' acc) true :: mathsGo .plain ps
    else mathsGo (.inDisp (acc ++ [p])) ps

/-- Modelled from the spec: scan a document into literal characters and
math spans, delimiters stripped from span bodies. -/
def mathScan (doc : List Char) : List Piece :=
  match splitOnChar '$' doc with
  | [] => []
  | p :: rest => chrs p ++ mathsGo .afterD rest

/-- Does the document contain a recognized math span. -/
def hasMathSpan (doc : List Char) : Bool :=
  (mathScan doc).any Piece.isSpan

/-- Render a piece list with a per-piece handler, failing as soon as the
handler fails (§4.4: the dispatcher runs synchronously in document
order). -/
def mathJoin (h : Piece → Except PulldownCmarkError (List Char)) :
    List Piece → Except PulldownCmarkError (List Char)
  | [] => .ok []
  | p :: ps =>
    match h p with
    | .error e => .error e
    | .ok a =>
      match mathJoin h ps with
      | .error e => .error e
      | .ok b => .ok (a ++ b)

/-- Modelled from the spec: the piece handler when math parsing is on
but no renderer is configured; a math span surfaces
`CannotRenderMathError` (§4.4). -/
def onHandler : Piece → Except PulldownCmarkError (List Char)
  | .chr c => .ok [c]
  | .span _ _ => .error .cannotRenderMath

/-- Modelled from the spec: the piece handler for a configured math
callback; its output is spliced as trusted raw HTML, its failure is
propagated as `BadCallback` (§4.4). -/
def cbHandler (f : List Char → Bool → Except (List Char) (List Char)) :
    Piece → Except PulldownCmarkError (List Char)
  | .chr c => .ok [c]
  | .span b d =>
    match f b d with
    | .ok h => .ok h
    | .error m => .error (.badCallback m)

/-- Modelled from the spec: the math stage of a render call.  With math
off the text passes through untouched; otherwise spans are dispatched
per the configuration. -/
def mathPassDoc : MathCfg → List Char → Except PulldownCmarkError (List Char)
  | .off, doc => .ok doc
  | .on, doc => mathJoin onHandler (mathScan doc)
  | .callback f, doc => mathJoin (cbHandler f) (mathScan doc)

theorem mathJoin_chrs (h : Piece → Except PulldownCmarkError (List Char))
    (hh : ∀ c, h (.chr c) = .ok [c]) : ∀ l, mathJoin h (chrs l) = .ok l
  | [] => rfl
  | c :: r => by
    simp only [chrs, List.map_cons, mathJoin, hh c]
    have ih := mathJoin_chrs h hh r
    simp only [chrs] at ih
    rw [ih]
    rfl

theorem mathJoin_on_error_iff : ∀ ps : List Piece,
    mathJoin onHandler ps = .error .cannotRenderMath ↔ ps.any Piece.isSpan = true
  | [] => by simp [mathJoin]
  | .chr c :: ps => by
    have ih := mathJoin_on_error_iff ps
    simp only [List.any_cons, Piece.isSpan, Bool.false_or, mathJoin, onHandler]
    cases hr : mathJoin onHandler ps with
    | error e =>
      rw [hr] at ih
      simpa using ih
    | ok b =>
      rw [hr] at ih
      simp only [reduceCtorEq, false_iff, Bool.not_eq_true] at ih
      simp [ih]
  | .span b d :: ps => by
    simp [mathJoin, onHandler, Piece.isSpan]

theorem mathJoin_ok_of_noSpan (h : Piece → Except PulldownCmarkError (List Char))
    (hh : ∀ c, h (.chr c) = .ok [c]) :
    ∀ ps : List Piece, ps.any Piece.isSpan = false → ∃ out, mathJoin h ps = .ok out
  | [], _ => ⟨[], rfl⟩
  | .chr c :: ps, hs => by
    simp only [List.any_cons, Piece.isSpan, Bool.false_or] at hs
    obtain ⟨out, hout⟩ := mathJoin_ok_of_noSpan h hh ps hs
    exact ⟨c :: out, by simp [mathJoin, hh c, hout]⟩
  | .span b d :: ps, hs => by
    simp [List.any_cons, Piece.isSpan] at hs

theorem mathJoin_fail (m : List Char) : ∀ ps : List Piece, ps.any Piece.isSpan = true →
    mathJoin (cbHandler (fun _ _ => .error m)) ps = .error (.badCallback m)
  | .chr c :: ps, hs => by
    simp only [List.any_cons, Piece.isSpan, Bool.false_or] at hs
    simp only [mathJoin, cbHandler]
    rw [mathJoin_fail m ps hs]
  | .span b d :: ps, _ => by
    simp [mathJoin, cbHandler]

theorem splitOnChar_append (d : Char) :
    ∀ b r, hasChar d b = false → splitOnChar d (b ++ d :: r) = b :: splitOnChar d r
  | [], r, _ => by simp [splitOnChar]
  | c :: b, r, h => by
    simp only [hasChar, Bool.or_eq_false_iff] at h
    simp only [List.cons_append, splitOnChar, h.1, Bool.false_eq_true, if_false]
    have hb : List.append b (d :: r) = b ++ d :: r := rfl
    rw [hb, splitOnChar_append d b r h.2, consHead]

theorem mathScan_no_dollar (doc : List Char) (h : hasChar '$' doc = false) :
    mathScan doc = chrs doc := by
  rw [mathScan, splitOnChar_single '$' doc h]
  simp [mathsGo]

theorem mathScan_inline (b : List Char) (hb : hasChar '$' b = false) (hne : b ≠ []) :
    mathScan ('$' :: (b ++ ['$'])) = [.span b false] := by
  rw [mathScan]
  have h1 : splitOnChar '$' ('$' :: (b ++ ['$'])) = [] :: b :: [[]] := by
    have : splitOnChar '$' (b ++ ['$']) = b :: splitOnChar '$' [] := by
      have := splitOnChar_append '$' b [] hb
      simpa using this
    simp only [splitOnChar, beq_self_eq_true, if_true]
    rw [this]
    rfl
  rw [h1]
  simp only [chrs, List.map_nil, List.nil_append]
  rw [mathsGo]
  simp only [List.isEmpty_iff, hne, if_false]
  simp [mathsGo, chrs]

set_option linter.unusedVariables false in
theorem mathScan_display (b : List Char) (hb : hasChar '$' b = false) (hne : b ≠ []) :
    mathScan ('$' :: '$' :: (b ++ ['$', '$'])) = [.span b true] := by
  rw [mathScan]
  have h0 : splitOnChar '$' (b ++ ['$', '$']) = b :: [] :: [[]] := by
    have := splitOnChar_append '$' b ['$'] hb
    simp only [splitOnChar, beq_self_eq_true, if_true] at this ⊢
    rw [show b ++ ['$', '$'] = b ++ '$' :: ['$'] from rfl, this]
  have h1 : splitOnChar '$' ('$' :: '$' :: (b ++ ['$', '$'])) =
      [] :: [] :: b :: [] :: [[]] := by
    simp only [splitOnChar, beq_self_eq_true, if_true]
    rw [h0]
  rw [h1]
  simp only [chrs, List.map_nil, List.nil_append]
  rw [mathsGo]
  simp only [List.isEmpty_nil, if_true]
  rw [mathsGo]
  simp only [List.isEmpty_iff, hne, if_false]
  rw [mathsGo]
  simp only [List.isEmpty_nil, if_true]
  simp [mathsGo, joinOn, chrs]

theorem mathPassDoc_no_dollar (cfg : MathCfg) (doc : List Char)
    (h : hasChar '$' doc = false) : mathPassDoc cfg doc = .ok doc :=
  match cfg with
  | MathCfg.off => rfl
  | MathCfg.on => by
    simp only [mathPassDoc]
    rw [mathScan_no_dollar doc h]
    exact mathJoin_chrs onHandler (fun _ => rfl) doc
  | MathCfg.callback f => by
    simp only [mathPassDoc]
    rw [mathScan_no_dollar doc h]
    exact mathJoin_chrs (cbHandler f) (fun _ => rfl) doc

/-- Look up a label in an association table, first binding wins. -/
def lookupTable : List (List Char × Nat) → List Char → Option Nat
  | [], _ => none
  | (a, n) :: t, l => if a = l then some n else lookupTable t l

/-- Zero-based position of the first occurrence of `l`. -/
def posOf : List (List Char) → List Char → Option Nat
  | [], _ => none
  | x :: xs, l => if x = l then some 0 else (posOf xs l).map (· + 1)

/-- Modelled from the spec: the Definition Table builder of the missing
native module.  Walking the inline references in document order, a label
that satisfies `keep` and has no index yet is assigned the next
monotonically increasing index (§3 Definition Table). -/
def assignAll (keep : List Char → Bool) : List (List Char) → List (List Char × Nat) →
    List (List Char × Nat)
  | [], t => t
  | l :: ls, t =>
    if keep l && (lookupTable t l).isNone then assignAll keep ls (t ++ [(l, t.length + 1)])
    else assignAll keep ls t

/-- First occurrences of labels satisfying `keep`, skipping labels
already in `seen`, in order of first appearance. -/
def freshFirsts (keep : List Char → Bool) (seen : List (List Char)) :
    List (List Char) → List (List Char)
  | [] => []
  | l :: ls =>
    if keep l && !(seen.contains l) then l :: freshFirsts keep (l :: seen) ls
    else freshFirsts keep seen ls


/-- The labels satisfying `keep` in order of first appearance. -/
def occOrder (keep : List Char → Bool) (refs : List (List Char)) : List (List Char) :=
  freshFirsts keep [] refs

/-- Pair each list element with its 1-based index counted from `n`. -/
def enumFrom (n : Nat) : List (List Char) → List (List Char × Nat)
  | [] => []
  | x :: xs => (x, n) :: enumFrom (n + 1) xs

theorem lookupTable_none_iff (t : List (List Char × Nat)) (l : List Char) :
    lookupTable t l = none ↔ l ∉ t.map Prod.fst := by
  induction t with
  | nil => simp [lookupTable]
  | cons p t ih =>
    obtain ⟨a, n⟩ := p
    by_cases h : a = l
    · subst h
      simp [lookupTable]
    · simp only [lookupTable, h, if_false, List.map_cons, List.mem_cons]
      rw [ih]
      constructor
      · intro hm hc
        rcases hc with hc | hc
        · exact h hc.symm
        · exact hm hc
      · intro hm hc
        exact hm (Or.inr hc)

theorem contains_eq_mem (s : List (List Char)) (l : List Char) :
    s.contains l = decide (l ∈ s) := by
  induction s with
  | nil => simp
  | cons x xs ih => simp [List.contains_cons, ih, List.mem_cons, eq_comm]

theorem freshFirsts_congr (keep : List Char → Bool) :
    ∀ (refs : List (List Char)) (s1 s2 : List (List Char)),
    (∀ x, x ∈ s1 ↔ x ∈ s2) → freshFirsts keep s1 refs = freshFirsts keep s2 refs
  | [], _, _, _ => rfl
  | l :: ls, s1, s2, hs => by
    have hc : s1.contains l = s2.contains l := by
      rw [contains_eq_mem, contains_eq_mem]
      simp [hs l]
    simp only [freshFirsts, hc]
    by_cases h : (keep l && !(s2.contains l)) = true
    · simp only [h, if_true]
      rw [freshFirsts_congr keep ls (l :: s1) (l :: s2)
        (fun x => by simp [List.mem_cons, hs x])]
    · simp only [h]
      simp only [Bool.false_eq_true, if_false]
      exact freshFirsts_congr keep ls s1 s2 hs

theorem assignAll_eq (keep : List Char → Bool) :
    ∀ (refs : List (List Char)) (t : List (List Char × Nat)),
    assignAll keep refs t = t ++ enumFrom (t.length + 1) (freshFirsts keep (t.map Prod.fst) refs)
  | [], t => by simp [assignAll, freshFirsts, enumFrom]
  | l :: ls, t => by
    simp only [assignAll, freshFirsts]
    by_cases hk : keep l = true
    · by_cases hn : (lookupTable t l).isNone = true
      · have hmem : l ∉ t.map Prod.fst := by
          rw [← lookupTable_none_iff]
          exact Option.isNone_iff_eq_none.mp hn
        have hcon : (t.map Prod.fst).contains l = false := by
          rw [contains_eq_mem]
          simp [hmem]
        simp only [hk, hn, Bool.and_self, if_true, hcon, Bool.not_false, Bool.and_true]
        rw [assignAll_eq keep ls (t ++ [(l, t.length + 1)])]
        have hmap : (t ++ [(l, t.length + 1)]).map Prod.fst = t.map Prod.fst ++ [l] := by
          simp
        rw [hmap]
        have hff : freshFirsts keep (t.map Prod.fst ++ [l]) ls =
            freshFirsts keep (l :: t.map Prod.fst) ls :=
          freshFirsts_congr keep ls _ _ (fun x => by simp [List.mem_append, List.mem_cons, or_comm])
        rw [hff]
        simp only [List.length_append, List.length_cons, List.length_nil, Nat.zero_add]
        rw [List.append_assoc]
        rfl
      · have hs : (lookupTable t l).isNone = false := by
          cases hx : (lookupTable t l).isNone
          · rfl
          · exact absurd hx hn
        have hmem : l ∈ t.map Prod.fst := by
          by_contra hq
          rw [← lookupTable_none_iff] at hq
          rw [hq] at hs
          simp at hs
        have hcon : (t.map Prod.fst).contains l = true := by
          rw [contains_eq_mem]
          simp [hmem]
        simp only [hk, hs, Bool.and_false, Bool.false_eq_true, if_false, hcon,
          Bool.not_true, Bool.and_false]
        exact assignAll_eq keep ls t
    · have hk2 : keep l = false := by
        cases hx : keep l
        · rfl
        · exact absurd hx hk
      simp only [hk2, Bool.false_and, Bool.false_eq_true, if_false]
      exact assignAll_eq keep ls t

theorem lookupTable_enumFrom (l : List Char) :
    ∀ (ls : List (List Char)) (n : Nat),
    lookupTable (enumFrom n ls) l = (posOf ls l).map (· + n)
  | [], _ => rfl
  | x :: xs, n => by
    by_cases h : x = l
    · subst h
      simp [enumFrom, lookupTable, posOf]
    · simp only [enumFrom, lookupTable, posOf, h, if_false]
      rw [lookupTable_enumFrom l xs (n + 1)]
      cases posOf xs l with
      | none => simp
      | some k =>
        show (some (k + (n + 1)) : Option Nat) = some (k + 1 + n)
        exact congrArg some (by omega)

/-- The index assigned by the operational table builder is exactly the
1-based rank of the label in first-reference order (restricted to the
labels satisfying `keep`). -/
theorem assignAll_rank (keep : List Char → Bool) (refs : List (List Char)) (l : List Char) :
    lookupTable (assignAll keep refs []) l = (posOf (occOrder keep refs) l).map (· + 1) := by
  rw [assignAll_eq keep refs []]
  simp only [List.nil_append, List.map_nil, List.length_nil, Nat.zero_add]
  rw [lookupTable_enumFrom]
  rfl

theorem freshFirsts_filter (keep : List Char → Bool) :
    ∀ (refs : List (List Char)) (seen : List (List Char)),
    freshFirsts keep seen refs = freshFirsts (fun _ => true) seen (refs.filter keep)
  | [], _ => rfl
  | l :: ls, seen => by
    by_cases hk : keep l = true
    · simp only [freshFirsts, hk, Bool.true_and, List.filter_cons_of_pos hk]
      by_cases hm : (seen.contains l) = true
      · simp only [hm, Bool.not_true, Bool.false_eq_true, if_false, Bool.and_false]
        exact freshFirsts_filter keep ls seen
      · have hm2 : seen.contains l = false := by
          cases hx : seen.contains l
          · rfl
          · exact absurd hx hm
        simp only [hm2, Bool.not_false, if_true, Bool.and_true]
        rw [freshFirsts_filter keep ls (l :: seen)]
    · have hk2 : keep l = false := by
        cases hx : keep l
        · rfl
        · exact absurd hx hk
      rw [List.filter_cons_of_neg hk]
      simp only [freshFirsts, hk2, Bool.false_and, Bool.false_eq_true, if_false]
      exact freshFirsts_filter keep ls seen

/-- First-reference order restricted by `keep` is first-occurrence order
of the filtered reference list. -/
theorem occOrder_filter (keep : List Char → Bool) (refs : List (List Char)) :
    occOrder keep refs = occOrder (fun _ => true) (refs.filter keep) :=
  freshFirsts_filter keep refs []

/-- Drop leading spaces. -/
def dropLeadSpace : List Char → List Char
  | ' ' :: r => dropLeadSpace r
  | l => l

/-- Modelled from the spec: recognize a footnote definition line
`[^label]: text` and return its label and text (§4.2 Footnotes,
§4.3 Reference Resolver). -/
def defLabel? (line : List Char) : Option (List Char × List Char) :=
  if leadsWith ['[', '^'] line then
    match splitOnChar ']' (line.drop 2) with
    | lbl :: r2 :: rs =>
      match joinOn ']' (r2 :: rs) with
      | ':' :: t => some (lbl, dropLeadSpace t)
      | _ => none
    | _ => none
  else none

/-- The label of one piece following a `[^` occurrence, when the piece
contains the closing bracket. -/
def pieceLabel (p : List Char) : Option (List Char) :=
  match splitOnChar ']' p with
  | lbl :: _ :: _ => some lbl
  | _ => none

/-- Rewrite the pieces following each `[^` occurrence: a piece with a
closing bracket becomes a rendered reference followed by the piece
remainder; without one the `[^` degrades to literal text. -/
def refTail (frag : List Char → List Char) : List (List Char) → List Char
  | [] => []
  | p :: ps =>
    (match splitOnChar ']' p with
     | lbl :: r2 :: rs => frag lbl ++ joinOn ']' (r2 :: rs)
     | _ => '[' :: '^' :: p) ++ refTail frag ps

/-- Modelled from the spec: rewrite every inline footnote reference
`[^label]` of a line using the fragment renderer `frag`. -/
def rewriteRefs (frag : List Char → List Char) (line : List Char) : List Char :=
  match splitSub2 '[' '^' line with
  | [] => []
  | x :: rest => x ++ refTail frag rest

/-- The footnote reference labels of a line, in order. -/
def refLabels (line : List Char) : List (List Char) :=
  match splitSub2 '[' '^' line with
  | [] => []
  | _ :: rest => rest.filterMap pieceLabel

/-- The footnote definition labels of a document, in definition order. -/
def defLabels (lines : List (List Char)) : List (List Char) :=
  lines.filterMap (fun l => (defLabel? l).map Prod.fst)

/-- The inline footnote reference labels of a document in document
order, definition lines excluded. -/
def refsOfLines (lines : List (List Char)) : List (List Char) :=
  ((lines.filter (fun l => (defLabel? l).isNone)).map refLabels).flatten

/-- Modelled from the spec: which referenced labels receive an index.
New-style footnotes only number labels that have a definition (an
undefined reference stays literal); old-style numbers every reference. -/
def keepFor (old : Bool) (dls : List (List Char)) : List Char → Bool :=
  fun l => old || dls.contains l

/-- Modelled from the spec: the footnote index table of one render call,
assigning indices in document order of first inline reference (§3
Definition Table, pinned by `test_footnotes`/`test_old_footnotes`). -/
def docTable (old : Bool) (lines : List (List Char)) : List (List Char × Nat) :=
  assignAll (keepFor old (defLabels lines)) (refsOfLines lines) []

/-- The visible number of a label, `0` when unassigned. -/
def numFor (table : List (List Char × Nat)) (lbl : List Char) : Nat :=
  (lookupTable table lbl).getD 0

/-- HTML for an inline footnote reference; the href preserves the
original label, the link text is the assigned number. -/
def refFrag (lbl : List Char) (n : Nat) : List Char :=
  "<sup class=\"footnote-reference\"><a href=\"#".toList ++ lbl ++
    "\">".toList ++ (Nat.repr n).toList ++ "</a></sup>".toList

/-- The literal text of an unrecognized footnote reference. -/
def litRef (lbl : List Char) : List Char :=
  "[^".toList ++ lbl ++ "]".toList

/-- HTML for a footnote definition block; the id preserves the label,
the visible definition label is the assigned number. -/
def defDiv (lbl : List Char) (n : Nat) (txt : List Char) : List Char :=
  "<div class=\"footnote-definition\" id=\"".toList ++ lbl ++
    "\"><sup class=\"footnote-definition-label\">".toList ++ (Nat.repr n).toList ++
    "</sup> ".toList ++ txt ++ "</div>".toList

/-- Renderer for one reference label: a numbered link when the label is
numbered (always, old-style; only when defined, new-style), literal
text otherwise. -/
def fragFor (old : Bool) (dls : List (List Char)) (table : List (List Char × Nat))
    (lbl : List Char) : List Char :=
  if old || dls.contains lbl then refFrag lbl (numFor table lbl) else litRef lbl

/-- Render one line of the footnote stage: a definition line becomes a
definition block, any other line has its references rewritten. -/
def fnLine (old : Bool) (dls : List (List Char)) (table : List (List Char × Nat))
    (line : List Char) : List Char :=
  match defLabel? line with
  | some (lbl, txt) => defDiv lbl (numFor table lbl) txt
  | none => rewriteRefs (fragFor old dls table) line

/-- Modelled from the spec: the footnote stage of a render call.  The
resolver pre-pass collects definitions and references over the whole
document, builds the index table, then every line is rendered (§4.2
Footnotes, §4.3 Reference Resolver). -/
def fnPass (old : Bool) (doc : List Char) : List Char :=
  joinLines ((splitLines doc).map
    (fnLine old (defLabels (splitLines doc)) (docTable old (splitLines doc))))

/-- The number a render call assigns to a footnote label. -/
def fnDefNumber (old : Bool) (doc : List Char) (lbl : List Char) : Option Nat :=
  lookupTable (docTable old (splitLines doc)) lbl

/-- Modelled from the claim under test: the 1-based rank of a footnote
definition in definition order (the numbering the claim predicts for
old-style footnotes). -/
def defOrderRank (doc : List Char) (lbl : List Char) : Option Nat :=
  (posOf (defLabels (splitLines doc)) lbl).map (· + 1)

theorem leadsWith2_of_hasSub2 (a b : Char) : ∀ l, hasSub2 a b l = false →
    leadsWith [a, b] l = false
  | [], _ => rfl
  | [x], _ => by simp [leadsWith]
  | x :: y :: r, h => by
    simp only [hasSub2, Bool.or_eq_false_iff] at h
    simp only [leadsWith, Bool.and_eq_false_iff]
    rcases Bool.and_eq_false_iff.mp h.1 with h1 | h1
    · left
      cases hax : (a == x)
      · rfl
      · have : a = x := by simpa using hax
        subst this
        simp at h1
    · right
      left
      cases hby : (b == y)
      · rfl
      · have : b = y := by simpa using hby
        subst this
        simp at h1

theorem defLabel?_none (line : List Char) (h : hasSub2 '[' '^' line = false) :
    defLabel? line = none := by
  rw [defLabel?, leadsWith2_of_hasSub2 '[' '^' line h]
  simp

theorem rewriteRefs_id (frag : List Char → List Char) (line : List Char)
    (h : hasSub2 '[' '^' line = false) : rewriteRefs frag line = line := by
  rw [rewriteRefs, splitSub2_single '[' '^' line h]
  simp [refTail]

theorem fnLine_id (old : Bool) (dls : List (List Char)) (table : List (List Char × Nat))
    (line : List Char) (h : hasSub2 '[' '^' line = false) :
    fnLine old dls table line = line := by
  rw [fnLine, defLabel?_none line h]
  exact rewriteRefs_id _ line h

theorem fnPass_id (old : Bool) (doc : List Char)
    (h : (splitLines doc).all (fun l => !(hasSub2 '[' '^' l)) = true) :
    fnPass old doc = doc := by
  rw [fnPass]
  have hmap : (splitLines doc).map
      (fnLine old (defLabels (splitLines doc)) (docTable old (splitLines doc))) =
      splitLines doc := by
    have hcongr : ∀ l ∈ splitLines doc,
        fnLine old (defLabels (splitLines doc)) (docTable old (splitLines doc)) l = id l := by
      intro l hl
      have hb := List.all_eq_true.mp h l hl
      have hb2 : hasSub2 '[' '^' l = false := by
        cases hx : hasSub2 '[' '^' l
        · rfl
        · rw [hx] at hb
          simp at hb
      exact fnLine_id old _ _ l hb2
    rw [List.map_congr_left hcongr, List.map_id]
  rw [hmap, joinLines_splitLines]

/-- The published theme catalogue (`THEMES` in
`pulldown_cmark/__init__.py`), pinned by `tests/test_css.py`. -/
def THEMES : List String :=
  ["base16-eighties.dark", "base16-mocha.dark", "base16-ocean.dark",
   "base16-ocean.light", "inspired-github.light", "solarized.dark",
   "solarized.light"]

/-- Modelled from the spec: the documented theme nicknames of the Theme
Registry alias table (§3 Theme; the concrete pairs live in the missing
native module). -/
def aliasPairs : List (String × String) :=
  [("eighties", "base16-eighties.dark"), ("mocha", "base16-mocha.dark"),
   ("ocean-dark", "base16-ocean.dark"), ("ocean-light", "base16-ocean.light"),
   ("github", "inspired-github.light"), ("solarized-dark", "solarized.dark"),
   ("solarized-light", "solarized.light")]

/-- Look up a theme nickname. -/
def aliasFind (n : String) : Option String :=
  (aliasPairs.find? (fun p => p.1 == n)).map Prod.snd

/-- Modelled from the spec: resolve a theme name against the Theme
Registry, catalogue first, then the alias table (§4.5). -/
def resolveTheme (n : String) : Option String :=
  if n ∈ THEMES then some n else aliasFind n

/-- The lexical token classes of the highlighter's theme tables. -/
def tokenClasses : List String :=
  ["keyword", "string", "comment", "number", "type"]

/-- Modelled from the spec: deterministic stylesheet text generated for
a resolved theme, one rule per token class (§4.5). -/
def cssFor (t : String) : String :=
  String.join (tokenClasses.map
    (fun c => "." ++ c ++ " color: var(--" ++ t ++ "-" ++ c ++ ");\n"))

/-- Modelled from the spec: the `css` utility operation; a resolvable
theme yields its stylesheet, an unknown name raises `UnknownTheme`
(§4.5, §6). -/
def css (name : String) : Except PulldownCmarkError String :=
  match resolveTheme name with
  | some t => .ok (cssFor t)
  | none => .error (.unknownTheme name)

/-- Modelled from the spec: the fixed grammar table of the built-in
highlighter; `rust` is pinned by `test_highlight_language` (§4.5). -/
def grammarTable : List String :=
  ["rust", "python", "c", "javascript"]

/-- Highlighted HTML for a recognized language and theme. -/
def hlHtml (t l : String) (body : List Char) : List Char :=
  "<pre class=\"highlight ".toList ++ t.toList ++ " ".toList ++ l.toList ++
    "\">".toList ++ body ++ "</pre>".toList

/-- Plain preformatted HTML for a code block with no language. -/
def plainHtml (body : List Char) : List Char :=
  "<pre><code>".toList ++ body ++ "</code></pre>".toList

/-- Modelled from the spec: the built-in highlighter.  The explicit
language name is resolved against the fixed grammar table (unknown name
raises `UnknownLanguage`), then the theme against the Theme Registry
(unknown raises `UnknownTheme`) (§4.5 lookup order). -/
def highlightCode (theme : String) (lang : Option String) (body : List Char) :
    Except PulldownCmarkError (List Char) :=
  match lang with
  | some l =>
    if l ∈ grammarTable then
      match resolveTheme theme with
      | some t => .ok (hlHtml t l body)
      | none => .error (.unknownTheme theme)
    else .error (.unknownLanguage l)
  | none =>
    match resolveTheme theme with
    | some _ => .ok (plainHtml body)
    | none => .error (.unknownTheme theme)

/-- Is the line a code-fence marker. -/
def isFence (l : List Char) : Bool :=
  leadsWith "```".toList l

/-- The language name carried by a fence line, when present. -/
def langOf (l : List Char) : Option String :=
  if (l.drop 3).isEmpty then none else some (String.mk (l.drop 3))

/-- Modelled from the spec: route one fenced block body to the
configured code renderer; a callback failure propagates as
`BadCallback` (§4.4). -/
def dispatchCode (cfg : CodeCfg) (lang : Option String) (body : List (List Char)) :
    Except PulldownCmarkError (List Char) :=
  match cfg with
  | CodeCfg.off => .ok (joinLines body)
  | CodeCfg.on theme => highlightCode theme lang (joinLines body)
  | CodeCfg.callback f =>
    match f (joinLines body) lang with
    | .ok h => .ok h
    | .error m => .error (.badCallback m)

/-- State of the fence scanner: outside any fence, or inside one with
the original fence line, its language and the body lines so far. -/
inductive CState where
  | outside
  | inside (orig : List Char) (lang : Option String) (acc : List (List Char))

/-- Modelled from the spec: walk the lines of a document grouping fenced
code blocks and dispatching each to the code renderer; an unclosed fence
degrades to literal lines (§4.1 failure policy, §4.4). -/
def codeGo (cfg : CodeCfg) : CState → List (List Char) →
    Except PulldownCmarkError (List (List Char))
  | .outside, [] => .ok []
  | .outside, l :: ls =>
    if isFence l then codeGo cfg (.inside l (langOf l) []) ls
    else
      match codeGo cfg .outside ls with
      | .error e => .error e
      | .ok r => .ok (l :: r)
  | .inside orig _ acc, [] => .ok (orig :: acc)
  | .inside orig lang acc, l :: ls =>
    if isFence l then
      match dispatchCode cfg lang acc with
      | .error e => .error e
      | .ok r =>
        match codeGo cfg .outside ls with
        | .error e => .error e
        | .ok rest => .ok (r :: rest)
    else codeGo cfg (.inside orig lang (acc ++ [l])) ls

/-- Modelled from the spec: the code stage of a render call.  With the
code hook off the text passes through; otherwise fenced blocks are
grouped and dispatched. -/
def codePassDoc (cfg : CodeCfg) (doc : List Char) :
    Except PulldownCmarkError (List Char) :=
  match cfg with
  | CodeCfg.off => .ok doc
  | _ =>
    match codeGo cfg .outside (splitLines doc) with
    | .error e => .error e
    | .ok ls => .ok (joinLines ls)

theorem codeGo_id (cfg : CodeCfg) : ∀ lines : List (List Char),
    lines.all (fun l => !(isFence l)) = true → codeGo cfg .outside lines = .ok lines
  | [], _ => rfl
  | l :: ls, h => by
    simp only [List.all_cons, Bool.and_eq_true] at h
    have h1 : isFence l = false := by
      have := h.1
      simpa using this
    simp [codeGo, h1, codeGo_id cfg ls h.2]

theorem codePassDoc_id (cfg : CodeCfg) (doc : List Char)
    (h : (splitLines doc).all (fun l => !(isFence l)) = true) :
    codePassDoc cfg doc = .ok doc := by
  match cfg with
  | CodeCfg.off => rfl
  | CodeCfg.on theme =>
    simp only [codePassDoc]
    rw [codeGo_id (CodeCfg.on theme) (splitLines doc) h]
    simp [joinLines_splitLines]
  | CodeCfg.callback f =>
    simp only [codePassDoc]
    rw [codeGo_id (CodeCfg.callback f) (splitLines doc) h]
    simp [joinLines_splitLines]

/-- Join pieces that were split on a single-character delimiter,
wrapping each completed delimiter pair in open/close tags; a trailing
unmatched delimiter degrades to literal text. -/
def pj1 (d : Char) (opn cls : List Char) : List (List Char) → List Char
  | [] => []
  | [x] => x
  | [x, y] => x ++ d :: y
  | x :: y :: rest => x ++ opn ++ y ++ cls ++ pj1 d opn cls rest

/-- Join pieces that were split on a doubled-character delimiter,
wrapping each completed pair in open/close tags; a trailing unmatched
delimiter degrades to literal text. -/
def pj2 (d : Char) (opn cls : List Char) : List (List Char) → List Char
  | [] => []
  | [x] => x
  | [x, y] => x ++ d :: d :: y
  | x :: y :: rest => x ++ opn ++ y ++ cls ++ pj2 d opn cls rest

/-- Modelled from the spec: a single-character delimited inline span
extension (superscript `^text^`, subscript `~text~`; §4.2). -/
def delimPass1 (d : Char) (opn cls : List Char) (doc : List Char) : List Char :=
  pj1 d opn cls (splitOnChar d doc)

/-- Modelled from the spec: a doubled-character delimited inline span
extension (strikethrough `~~text~~`; §4.2). -/
def delimPass2 (d : Char) (opn cls : List Char) (doc : List Char) : List Char :=
  pj2 d opn cls (splitSub2 d d doc)

/-- The strikethrough rewrite. -/
def strikePass (doc : List Char) : List Char :=
  delimPass2 '~' "<del>".toList "</del>".toList doc

/-- The subscript rewrite. -/
def subPass (doc : List Char) : List Char :=
  delimPass1 '~' "<sub>".toList "</sub>".toList doc

/-- The superscript rewrite. -/
def supPass (doc : List Char) : List Char :=
  delimPass1 '^' "<sup>".toList "</sup>".toList doc

/-- HTML for a wikilink: destination and text both equal the target. -/
def wikiLink (t : List Char) : List Char :=
  "<a href=\"".toList ++ t ++ "\">".toList ++ t ++ "</a>".toList

/-- Join pieces back with a doubled-character separator. -/
def joinSub2 (a b : Char) : List (List Char) → List Char
  | [] => []
  | [p] => p
  | p :: ps => p ++ a :: b :: joinSub2 a b ps

/-- Rewrite the pieces following each `[[` occurrence: a piece with a
closing `]]` becomes a link, one without degrades to literal text. -/
def wikiTail : List (List Char) → List Char
  | [] => []
  | p :: ps =>
    (match splitSub2 ']' ']' p with
     | t :: u :: us => wikiLink t ++ joinSub2 ']' ']' (u :: us)
     | _ => '[' :: '[' :: p) ++ wikiTail ps

/-- Modelled from the spec: the wikilink extension `[[target]]`
(§4.2). -/
def wikiPass (doc : List Char) : List Char :=
  match splitSub2 '[' '[' doc with
  | [] => []
  | x :: rest => x ++ wikiTail rest

/-- The straight single-quote character. -/
def sq : Char := Char.ofNat 39

/-- The straight double-quote character. -/
def dq : Char := Char.ofNat 34

/-- Substitute one character under the smart-punctuation quote toggles,
returning the replacement text and the updated toggles. -/
def smartChar (q1 q2 : Bool) (c : Char) : List Char × Bool × Bool :=
  if c = sq then ((if q1 then "&rsquo;".toList else "&lsquo;".toList), !q1, q2)
  else if c = dq then ((if q2 then "&rdquo;".toList else "&ldquo;".toList), q1, !q2)
  else ([c], q1, q2)

/-- Modelled from the spec: the smart-punctuation substitution, walking
the text with an open/close toggle per quote kind and rewriting doubled
hyphens (§4.2). -/
def smartGo (q1 q2 : Bool) : List Char → List Char
  | [] => []
  | [c] => (smartChar q1 q2 c).1
  | c :: c2 :: rest =>
    if c = '-' && c2 = '-' then "&ndash;".toList ++ smartGo q1 q2 rest
    else
      (smartChar q1 q2 c).1 ++
        smartGo (smartChar q1 q2 c).2.1 (smartChar q1 q2 c).2.2 (c2 :: rest)

/-- The smart-punctuation rewrite of a whole document. -/
def smartPass (doc : List Char) : List Char :=
  smartGo false false doc

/-- Trigger of the task-list extension: a checkbox item marker. -/
def taskTrig (l : List Char) : Bool :=
  leadsWith "- [ ] ".toList l || leadsWith "- [x] ".toList l

/-- Modelled from the spec: the task-list item rewrite (§4.2). -/
def taskLine (l : List Char) : List Char :=
  if taskTrig l then
    (if leadsWith "- [x] ".toList l then
      "<li><input checked disabled type=\"checkbox\"> ".toList
    else "<li><input disabled type=\"checkbox\"> ".toList) ++ l.drop 6 ++ "</li>".toList
  else l

/-- Trigger of the GFM alert extension: a quoted alert marker. -/
def gfmTrig (l : List Char) : Bool :=
  leadsWith "> [!".toList l

/-- Modelled from the spec: the GFM alert block-quote rewrite (§4.2). -/
def gfmLine (l : List Char) : List Char :=
  if gfmTrig l then
    "<blockquote class=\"markdown-alert\">".toList ++ l.drop 4 ++ "</blockquote>".toList
  else l

/-- Trigger of the definition-list extension: a definition marker. -/
def defListTrig (l : List Char) : Bool :=
  leadsWith ": ".toList l

/-- Modelled from the spec: the definition-list definition rewrite
(§4.2). -/
def defListLine (l : List Char) : List Char :=
  if defListTrig l then "<dd>".toList ++ l.drop 2 ++ "</dd>".toList else l

/-- The opening-brace character. -/
def lbr : Char := Char.ofNat 123

/-- The closing-brace character. -/
def rbr : Char := Char.ofNat 125

/-- Trigger of the heading-attributes extension: an attribute block
opener on the line. -/
def headTrig (l : List Char) : Bool :=
  hasSub2 lbr '#' l

/-- Modelled from the spec: the heading-attributes rewrite, stripping
the trailing attribute block from the visible text and attaching the id
(§4.2). -/
def headAttrLine (l : List Char) : List Char :=
  if headTrig l then
    match splitSub2 lbr '#' l with
    | x :: y :: _ =>
      "<h1 id=\"".toList ++ (splitOnChar rbr y).headD [] ++ "\">".toList ++ x ++
        "</h1>".toList
    | _ => l
  else l

/-- Trigger of the tables extension: a pipe on the line. -/
def tableTrig (l : List Char) : Bool :=
  hasChar '|' l

/-- Join table cells with cell separators. -/
def joinOn2Cells : List (List Char) → List Char
  | [] => []
  | [p] => p
  | p :: ps => p ++ "</td><td>".toList ++ joinOn2Cells ps

/-- Modelled from the spec: the table-row rewrite of a pipe-delimited
line (§4.2). -/
def tableLine (l : List Char) : List Char :=
  if tableTrig l then
    "<tr><td>".toList ++ joinOn2Cells (splitOnChar '|' l) ++ "</td></tr>".toList
  else l

/-- Apply a per-line rewrite to every line of a document. -/
def linePass (f : List Char → List Char) (doc : List Char) : List Char :=
  joinLines ((splitLines doc).map f)

theorem linePass_id (f : List Char → List Char) (doc : List Char)
    (h : ∀ l ∈ splitLines doc, f l = l) : linePass f doc = doc := by
  rw [linePass]
  have hmap : (splitLines doc).map f = splitLines doc := by
    rw [List.map_congr_left h]
    simp
  rw [hmap, joinLines_splitLines]

theorem delimPass1_id (d : Char) (opn cls : List Char) (doc : List Char)
    (h : hasChar d doc = false) : delimPass1 d opn cls doc = doc := by
  rw [delimPass1, splitOnChar_single d doc h, pj1]

theorem delimPass2_id (d : Char) (opn cls : List Char) (doc : List Char)
    (h : hasSub2 d d doc = false) : delimPass2 d opn cls doc = doc := by
  rw [delimPass2, splitSub2_single d d doc h, pj2]

theorem wikiPass_id (doc : List Char) (h : hasSub2 '[' '[' doc = false) :
    wikiPass doc = doc := by
  rw [wikiPass, splitSub2_single '[' '[' doc h]
  simp [wikiTail]

theorem smartChar_id (q1 q2 : Bool) (c : Char) (hcs : c ≠ sq) (hcd : c ≠ dq) :
    smartChar q1 q2 c = ([c], q1, q2) := by
  simp [smartChar, hcs, hcd]

theorem smartGo_id (q1 q2 : Bool) : ∀ l : List Char,
    hasChar sq l = false → hasChar dq l = false → hasSub2 '-' '-' l = false →
    smartGo q1 q2 l = l
  | [], _, _, _ => rfl
  | [c], hs, hd, _ => by
    simp only [hasChar, Bool.or_eq_false_iff] at hs hd
    have hcs : c ≠ sq := by
      intro hcc
      subst hcc
      simp at hs
    have hcd : c ≠ dq := by
      intro hcc
      subst hcc
      simp at hd
    simp [smartGo, smartChar_id q1 q2 c hcs hcd]
  | c :: c2 :: rest, hs, hd, hh => by
    simp only [hasChar, Bool.or_eq_false_iff] at hs hd
    simp only [hasSub2, Bool.or_eq_false_iff] at hh
    have hcs : c ≠ sq := by
      intro hcc
      subst hcc
      simp at hs
    have hcd : c ≠ dq := by
      intro hcc
      subst hcc
      simp at hd
    have htail : smartGo q1 q2 (c2 :: rest) = c2 :: rest :=
      smartGo_id q1 q2 (c2 :: rest) (by simp [hasChar, hs.2.1, hs.2.2])
        (by simp [hasChar, hd.2.1, hd.2.2]) hh.2
    have hh1 : ¬(c = '-' ∧ c2 = '-') := by
      intro hpair
      obtain ⟨h1, h2⟩ := hpair
      subst h1
      subst h2
      simp at hh
    have hcond : (decide (c = '-') && decide (c2 = '-')) = false := by
      by_cases h1 : c = '-'
      · by_cases h2 : c2 = '-'
        · exact absurd ⟨h1, h2⟩ hh1
        · simp [h2]
      · simp [h1]
    simp only [smartGo, hcond, Bool.false_eq_true, if_false,
      smartChar_id q1 q2 c hcs hcd, htail]
    rfl

theorem smartPass_id (doc : List Char) (hs : hasChar sq doc = false)
    (hd : hasChar dq doc = false) (hh : hasSub2 '-' '-' doc = false) :
    smartPass doc = doc :=
  smartGo_id false false doc hs hd hh

/-- Modelled from the spec: render one document.  The configuration is
validated, the footnote resolver pre-pass runs first, code blocks and
math spans are dispatched, the extension rewrites run gated by their
toggles, smart punctuation last (§4.1 precedence, §5 pipeline).  A
failure aborts the document's render with no partial output (§7). -/
def renderDoc (o : Options) (doc : List Char) : Except PulldownCmarkError (List Char) :=
  if validB o then
    let s1 := if o.footnotes || o.old_footnotes then fnPass o.old_footnotes doc else doc
    match codePassDoc o.code s1 with
    | .error e => .error e
    | .ok s2 =>
      let s3 := if o.tables then linePass tableLine s2 else s2
      let s4 := if o.tasklists then linePass taskLine s3 else s3
      let s5 := if o.gfm then linePass gfmLine s4 else s4
      let s6 := if o.definition_list then linePass defListLine s5 else s5
      let s7 := if o.heading_attributes then linePass headAttrLine s6 else s6
      match mathPassDoc o.math s7 with
      | .error e => .error e
      | .ok s8 =>
        let s9 := if o.wikilinks then wikiPass s8 else s8
        let s10 := if o.strikethrough then strikePass s9 else s9
        let s11 := if o.subscript then subPass s10 else s10
        let s12 := if o.superscript then supPass s11 else s11
        .ok (if o.smart_punctuation then smartPass s12 else s12)
  else .error .cannotConfigMath

/-- Modelled from the spec: the batch `render` operation, one output per
input, order preserving, failing atomically (§6). -/
def render (docs : List (List Char)) (o : Options) :
    Except PulldownCmarkError (List (List Char)) :=
  match docs with
  | [] => .ok []
  | d :: ds =>
    match renderDoc o d with
    | .error e => .error e
    | .ok h =>
      match render ds o with
      | .error e => .error e
      | .ok t => .ok (h :: t)

/-- Per-line absence of every line-triggered extension's syntax. -/
def lineOk (l : List Char) : Bool :=
  !(isFence l) && !(hasSub2 '[' '^' l) && !(taskTrig l) && !(gfmTrig l) &&
    !(defListTrig l) && !(headTrig l) && !(tableTrig l)

/-- Absence of every extension's trigger syntax in a document. -/
def triggerFree (doc : List Char) : Bool :=
  !(hasChar '$' doc) && !(hasChar '~' doc) && !(hasChar '^' doc) &&
    !(hasSub2 '[' '[' doc) && !(hasChar sq doc) && !(hasChar dq doc) &&
    !(hasSub2 '-' '-' doc) && (splitLines doc).all lineOk

theorem bool_not_true {b : Bool} (h : (!b) = true) : b = false := by
  cases b
  · rfl
  · simp at h

theorem renderDoc_triggerFree (o : Options) (doc : List Char)
    (hv : validB o = true) (ht : triggerFree doc = true) : renderDoc o doc = .ok doc := by
  simp only [triggerFree, Bool.and_eq_true] at ht
  obtain ⟨⟨⟨⟨⟨⟨⟨hd1, hd2⟩, hd3⟩, hd4⟩, hd5⟩, hd6⟩, hd7⟩, hlines⟩ := ht
  have hd1 := bool_not_true hd1
  have hd2 := bool_not_true hd2
  have hd3 := bool_not_true hd3
  have hd4 := bool_not_true hd4
  have hd5 := bool_not_true hd5
  have hd6 := bool_not_true hd6
  have hd7 := bool_not_true hd7
  have hline : ∀ l ∈ splitLines doc,
      isFence l = false ∧ hasSub2 '[' '^' l = false ∧ taskTrig l = false ∧
      gfmTrig l = false ∧ defListTrig l = false ∧ headTrig l = false ∧
      tableTrig l = false := by
    intro l hl
    have hok := List.all_eq_true.mp hlines l hl
    simp only [lineOk, Bool.and_eq_true] at hok
    obtain ⟨⟨⟨⟨⟨⟨ha, hb⟩, hc⟩, hd⟩, he⟩, hf⟩, hg⟩ := hok
    exact ⟨bool_not_true ha, bool_not_true hb, bool_not_true hc, bool_not_true hd,
      bool_not_true he, bool_not_true hf, bool_not_true hg⟩
  have hfence : (splitLines doc).all (fun l => !(isFence l)) = true := by
    rw [List.all_eq_true]
    intro l hl
    simp [(hline l hl).1]
  have hfn : (splitLines doc).all (fun l => !(hasSub2 '[' '^' l)) = true := by
    rw [List.all_eq_true]
    intro l hl
    simp [(hline l hl).2.1]
  have h1 : (if o.footnotes || o.old_footnotes then fnPass o.old_footnotes doc else doc)
      = doc := by
    by_cases hf : (o.footnotes || o.old_footnotes) = true
    · simp only [hf, if_true]
      exact fnPass_id o.old_footnotes doc hfn
    · simp only [Bool.not_eq_true] at hf
      simp [hf]
  have h3 : (if o.tables then linePass tableLine doc else doc) = doc := by
    by_cases hf : o.tables = true
    · simp only [hf, if_true]
      refine linePass_id tableLine doc (fun l hl => ?_)
      simp [tableLine, (hline l hl).2.2.2.2.2.2]
    · simp only [Bool.not_eq_true] at hf
      simp [hf]
  have h4 : (if o.tasklists then linePass taskLine doc else doc) = doc := by
    by_cases hf : o.tasklists = true
    · simp only [hf, if_true]
      refine linePass_id taskLine doc (fun l hl => ?_)
      simp [taskLine, (hline l hl).2.2.1]
    · simp only [Bool.not_eq_true] at hf
      simp [hf]
  have h5 : (if o.gfm then linePass gfmLine doc else doc) = doc := by
    by_cases hf : o.gfm = true
    · simp only [hf, if_true]
      refine linePass_id gfmLine doc (fun l hl => ?_)
      simp [gfmLine, (hline l hl).2.2.2.1]
    · simp only [Bool.not_eq_true] at hf
      simp [hf]
  have h6 : (if o.definition_list then linePass defListLine doc else doc) = doc := by
    by_cases hf : o.definition_list = true
    · simp only [hf, if_true]
      refine linePass_id defListLine doc (fun l hl => ?_)
      simp [defListLine, (hline l hl).2.2.2.2.1]
    · simp only [Bool.not_eq_true] at hf
      simp [hf]
  have h7 : (if o.heading_attributes then linePass headAttrLine doc else doc) = doc := by
    by_cases hf : o.heading_attributes = true
    · simp only [hf, if_true]
      refine linePass_id headAttrLine doc (fun l hl => ?_)
      simp [headAttrLine, (hline l hl).2.2.2.2.2.1]
    · simp only [Bool.not_eq_true] at hf
      simp [hf]
  have h9 : (if o.wikilinks then wikiPass doc else doc) = doc := by
    by_cases hf : o.wikilinks = true
    · simp only [hf, if_true]
      exact wikiPass_id doc hd4
    · simp only [Bool.not_eq_true] at hf
      simp [hf]
  have h10 : (if o.strikethrough then strikePass doc else doc) = doc := by
    by_cases hf : o.strikethrough = true
    · simp only [hf, if_true]
      exact delimPass2_id '~' _ _ doc (hasSub2_of_hasChar '~' '~' doc hd2)
    · simp only [Bool.not_eq_true] at hf
      simp [hf]
  have h11 : (if o.subscript then subPass doc else doc) = doc := by
    by_cases hf : o.subscript = true
    · simp only [hf, if_true]
      exact delimPass1_id '~' _ _ doc hd2
    · simp only [Bool.not_eq_true] at hf
      simp [hf]
  have h12 : (if o.superscript then supPass doc else doc) = doc := by
    by_cases hf : o.superscript = true
    · simp only [hf, if_true]
      exact delimPass1_id '^' _ _ doc hd3
    · simp only [Bool.not_eq_true] at hf
      simp [hf]
  have h13 : (if o.smart_punctuation then smartPass doc else doc) = doc := by
    by_cases hf : o.smart_punctuation = true
    · simp only [hf, if_true]
      exact smartPass_id doc hd5 hd6 hd7
    · simp only [Bool.not_eq_true] at hf
      simp [hf]
  rw [renderDoc]
  simp only [hv, if_true, h1]
  rw [codePassDoc_id o.code doc hfence]
  simp only [h3, h4, h5, h6, h7]
  rw [mathPassDoc_no_dollar o.math doc hd1]
  simp only [h9, h10, h11, h12, h13]

/-- The empty configuration: every extension off. -/
def optsNone : Options :=
  ⟨false, false, false, false, false, false, false, false, false, false, false, false,
    MathCfg.off, CodeCfg.off⟩

/-- A configuration with only the math hook set. -/
def mathOnly (cfg : MathCfg) : Options :=
  ⟨false, false, false, false, false, false, false, false, false, false, false, false,
    cfg, CodeCfg.off⟩

/-- A configuration with only new-style footnotes enabled. -/
def optsFootnotes : Options :=
  ⟨false, true, false, false, false, false, false, false, false, false, false, false,
    MathCfg.off, CodeCfg.off⟩

/-- A configuration with only old-style footnotes enabled. -/
def optsOldFootnotes : Options :=
  ⟨false, false, true, false, false, false, false, false, false, false, false, false,
    MathCfg.off, CodeCfg.off⟩

theorem renderDoc_mathOnly (cfg : MathCfg) (doc : List Char) :
    renderDoc (mathOnly cfg) doc = mathPassDoc cfg doc := by
  cases h : mathPassDoc cfg doc <;>
    simp [renderDoc, mathOnly, validB, codePassDoc, h]

theorem renderDoc_optsFootnotes (doc : List Char) :
    renderDoc optsFootnotes doc = .ok (fnPass false doc) := by
  simp [renderDoc, optsFootnotes, validB, codePassDoc, mathPassDoc]

theorem renderDoc_optsOldFootnotes (doc : List Char) :
    renderDoc optsOldFootnotes doc = .ok (fnPass true doc) := by
  simp [renderDoc, optsOldFootnotes, validB, codePassDoc, mathPassDoc]

/-- The markdown document of the footnote example: inline references to
labels 1, 2, 4, 3 in that order, followed by definitions for labels
1, 2, 3 (the input of `test_footnotes` and `test_old_footnotes`). -/
def c1Doc : List Char :=
  "foo[^1] bar[^2] qux[^4]\n\nbaz[^3]\n\n[^1]: foo\n[^2]: bar\n\n[^3]: baz".toList

instance instDecEqExcept {e a : Type} [DecidableEq e] [DecidableEq a] :
    DecidableEq (Except e a) := fun x y =>
  match x, y with
  | .error v, .error w =>
    if h : v = w then isTrue (by rw [h])
    else isFalse (by intro hc; cases hc; exact h rfl)
  | .error _, .ok _ => isFalse (by intro hc; cases hc)
  | .ok _, .error _ => isFalse (by intro hc; cases hc)
  | .ok v, .ok w =>
    if h : v = w then isTrue (by rw [h])
    else isFalse (by intro hc; cases hc; exact h rfl)

set_option maxRecDepth 8192

/-- C1 (counterexample): the claim says that with old-style footnotes
the visible number of each definition equals its 1-based rank in
definition order.  On the example input the definition for label `3` is
the third definition, so the claim predicts visible number 3, but the
render assigns it number 4 (its label's rank in reference order), and
the rendered definition block shows `4`. -/
theorem c1_footnote_numbering_counterexample :
    fnDefNumber true c1Doc ['3'] = some 4 ∧
    defOrderRank c1Doc ['3'] = some 3 ∧
    fnDefNumber true c1Doc ['3'] ≠ defOrderRank c1Doc ['3'] ∧
    containsSeg "footnote-definition-label\">4</sup> baz".toList (fnPass true c1Doc) = true :=
  ⟨by decide, by decide, by decide, by decide⟩

/-- C1 (amended): with new-style footnotes the number assigned to each
definition equals the 1-based rank of its label in order of first inline
reference among defined labels, and a reference whose label has no
definition stays literal text; with old-style footnotes the number
equals the 1-based rank of the label's first inline reference among all
references (defined or not), not its definition position.  In the
example, new-style shows numbers 1,2,3 with `[^4]` literal, while
old-style shows definition numbers 1,2,4.  The general clause proves the
operational index table assigns exactly first-reference ranks. -/
theorem c1_footnote_numbering_amended :
    (∀ (keep : List Char → Bool) (refs : List (List Char)) (l : List Char),
      lookupTable (assignAll keep refs []) l = (posOf (occOrder keep refs) l).map (· + 1)) ∧
    renderDoc optsFootnotes c1Doc = .ok (fnPass false c1Doc) ∧
    fnDefNumber false c1Doc ['1'] = some 1 ∧
    fnDefNumber false c1Doc ['2'] = some 2 ∧
    fnDefNumber false c1Doc ['3'] = some 3 ∧
    fnDefNumber false c1Doc ['4'] = none ∧
    containsSeg "qux[^4]".toList (fnPass false c1Doc) = true ∧
    renderDoc optsOldFootnotes c1Doc = .ok (fnPass true c1Doc) ∧
    fnDefNumber true c1Doc ['1'] = some 1 ∧
    fnDefNumber true c1Doc ['2'] = some 2 ∧
    fnDefNumber true c1Doc ['3'] = some 4 ∧
    occOrder (keepFor true (defLabels (splitLines c1Doc))) (refsOfLines (splitLines c1Doc)) =
      [['1'], ['2'], ['4'], ['3']] :=
  ⟨assignAll_rank, renderDoc_optsFootnotes c1Doc, by decide, by decide, by decide,
   by decide, by decide, renderDoc_optsOldFootnotes c1Doc, by decide, by decide,
   by decide, by decide⟩

/-- C2: for every document without extension trigger syntax and every
pair of well-formed configurations, render produces identical output:
both equal the document passed through unchanged. -/
theorem c2_extension_neutrality (o1 o2 : Options) (doc : List Char)
    (h1 : validB o1 = true) (h2 : validB o2 = true) (ht : triggerFree doc = true) :
    renderDoc o1 doc = renderDoc o2 doc := by
  rw [renderDoc_triggerFree o1 doc h1 ht, renderDoc_triggerFree o2 doc h2 ht]

/-- A configuration with every extension toggle on (one of each
mutually exclusive pair), a math callback and the built-in highlighter. -/
def optsAllOn : Options :=
  ⟨true, true, false, true, true, true, true, true, true, true, false, true,
    MathCfg.callback (fun b _ => .ok b), CodeCfg.on "solarized.dark"⟩

/-- C2 witness: the fully-extended and the empty configuration agree on
a plain document. -/
theorem c2_extension_neutrality_witness :
    renderDoc optsAllOn "hello world".toList = renderDoc optsNone "hello world".toList :=
  c2_extension_neutrality optsAllOn optsNone "hello world".toList (by decide) (by decide)
    (by decide)

/-- C3: a render call for one document either succeeds with complete
output or fails with exactly one error value, never both; and a failing
math callback aborts the whole document's render with a `BadCallback`
error and no partial output. -/
theorem c3_render_atomicity :
    (∀ (o : Options) (doc : List Char),
      (∃ h, renderDoc o doc = .ok h) ↔ ¬ ∃ e, renderDoc o doc = .error e) ∧
    (∀ (doc m : List Char), hasMathSpan doc = true →
      renderDoc (mathOnly (MathCfg.callback (fun _ _ => .error m))) doc =
        .error (.badCallback m)) := by
  constructor
  · intro o doc
    cases hr : renderDoc o doc <;> simp
  · intro doc m hspan
    rw [renderDoc_mathOnly]
    simp only [mathPassDoc]
    exact mathJoin_fail m (mathScan doc) (by rwa [hasMathSpan] at hspan)

/-- C3 witness: a math callback that always fails aborts the render of a
document containing a math span. -/
theorem c3_render_atomicity_witness :
    renderDoc (mathOnly (MathCfg.callback (fun _ _ => .error ['e']))) "$x$".toList =
      .error (.badCallback ['e']) :=
  c3_render_atomicity.2 "$x$".toList ['e'] (by decide)

/-- C4: with math parsing enabled and no renderer configured, a render
fails with `CannotRenderMathError` exactly when a math span exists; a
math callback with no math span present, and the no-renderer case with
no span present, never error. -/
theorem c4_cannot_render_math_iff :
    (∀ doc : List Char,
      renderDoc (mathOnly MathCfg.on) doc = .error .cannotRenderMath ↔
        hasMathSpan doc = true) ∧
    (∀ (doc : List Char) (f : List Char → Bool → Except (List Char) (List Char)),
      hasMathSpan doc = false →
        ∃ h, renderDoc (mathOnly (MathCfg.callback f)) doc = .ok h) ∧
    (∀ doc : List Char, hasMathSpan doc = false →
      ∃ h, renderDoc (mathOnly MathCfg.on) doc = .ok h) := by
  refine ⟨?_, ?_, ?_⟩
  · intro doc
    rw [renderDoc_mathOnly, hasMathSpan]
    exact mathJoin_on_error_iff (mathScan doc)
  · intro doc f hn
    rw [renderDoc_mathOnly]
    exact mathJoin_ok_of_noSpan (cbHandler f) (fun _ => rfl) (mathScan doc)
      (by rwa [hasMathSpan] at hn)
  · intro doc hn
    rw [renderDoc_mathOnly]
    exact mathJoin_ok_of_noSpan onHandler (fun _ => rfl) (mathScan doc)
      (by rwa [hasMathSpan] at hn)

/-- C4 witness: a document with a math span and no renderer raises
`CannotRenderMathError`; a callback over a span-free document succeeds. -/
theorem c4_cannot_render_math_iff_witness :
    renderDoc (mathOnly MathCfg.on) "$x$".toList =
      .error PulldownCmarkError.cannotRenderMath ∧
    ∃ h, renderDoc (mathOnly (MathCfg.callback (fun b _ => .ok b))) "plain".toList = .ok h :=
  ⟨(c4_cannot_render_math_iff.1 "$x$".toList).mpr (by decide),
   c4_cannot_render_math_iff.2.1 "plain".toList (fun b _ => .ok b) (by decide)⟩

/-- C5: a successful batch render returns one output per input in
order: the result has the length of the input list and its i-th element
is the render of the i-th document. -/
theorem c5_render_batch (o : Options) : ∀ (docs outs : List (List Char)),
    render docs o = .ok outs →
    outs.length = docs.length ∧
    ∀ (i : Nat) (hi : i < docs.length) (ho : i < outs.length),
      renderDoc o (docs.get ⟨i, hi⟩) = .ok (outs.get ⟨i, ho⟩)
  | [], outs, h => by
    simp only [render] at h
    have houts : outs = [] := by
      cases h
      rfl
    subst houts
    exact ⟨rfl, fun i hi _ => absurd hi (by simp)⟩
  | d :: ds, outs, h => by
    simp only [render] at h
    cases hd : renderDoc o d with
    | error e =>
      rw [hd] at h
      cases h
    | ok hh =>
      rw [hd] at h
      cases ht : render ds o with
      | error e =>
        rw [ht] at h
        cases h
      | ok t =>
        rw [ht] at h
        have houts : outs = hh :: t := by
          cases h
          rfl
        subst houts
        obtain ⟨hlen, hidx⟩ := c5_render_batch o ds t ht
        refine ⟨by simp [hlen], ?_⟩
        intro i hi ho
        cases i with
        | zero => simpa using hd
        | succ j =>
          exact hidx j (Nat.lt_of_succ_lt_succ hi) (Nat.lt_of_succ_lt_succ ho)

/-- C5 witness: a two-document batch renders to two outputs, the first
being the render of the first document. -/
theorem c5_render_batch_witness :
    renderDoc optsNone ((["ab".toList, "cd".toList] : List (List Char)).get ⟨0, by decide⟩) =
      .ok ((["ab".toList, "cd".toList] : List (List Char)).get ⟨0, by decide⟩) :=
  (c5_render_batch optsNone ["ab".toList, "cd".toList] ["ab".toList, "cd".toList]
    (by decide)).2 0 (by decide) (by decide)

/-- C6: a highlight request for a language name outside the fixed
grammar table raises `UnknownLanguageError`; a theme name outside the
catalogue and the alias table raises `UnknownThemeError`, both from the
stylesheet utility and from the highlighter. -/
theorem c6_unknown_language_theme :
    (∀ (theme l : String) (body : List Char), l ∉ grammarTable →
      highlightCode theme (some l) body = .error (.unknownLanguage l)) ∧
    (∀ n : String, n ∉ THEMES → aliasFind n = none →
      css n = .error (.unknownTheme n)) ∧
    (∀ (l : String) (body : List Char) (n : String), l ∈ grammarTable → n ∉ THEMES →
      aliasFind n = none → highlightCode n (some l) body = .error (.unknownTheme n)) := by
  refine ⟨?_, ?_, ?_⟩
  · intro theme l body hl
    simp [highlightCode, hl]
  · intro n h1 h2
    simp [css, resolveTheme, h1, h2]
  · intro l body n hl h1 h2
    simp [highlightCode, hl, resolveTheme, h1, h2]

/-- C6 witness: an unknown language and an unknown theme raise their
respective errors. -/
theorem c6_unknown_language_theme_witness :
    highlightCode "solarized.dark" (some "klingon") [] =
      .error (PulldownCmarkError.unknownLanguage "klingon") ∧
    css "no-such-theme" = .error (PulldownCmarkError.unknownTheme "no-such-theme") :=
  ⟨c6_unknown_language_theme.1 "solarized.dark" "klingon" [] (by decide),
   c6_unknown_language_theme.2.1 "no-such-theme" (by decide) (by decide)⟩

/-- C7: `css` succeeds for every name of the published catalogue
`THEMES`; being a pure function of its argument, its output for a fixed
name is identical across calls. -/
theorem c7_theme_catalogue_css :
    ∀ t ∈ THEMES, (css t).isOk = true := by
  decide

/-- C7 witness: the first catalogue theme has a stylesheet. -/
theorem c7_theme_catalogue_css_witness : (css "base16-eighties.dark").isOk = true :=
  c7_theme_catalogue_css "base16-eighties.dark" (by decide)

/-- C8: a configuration requesting both footnote numbering schemes, or
both subscript and strikethrough (which share the tilde delimiter),
makes every render call fail with the configuration error instead of
rendering under some precedence; the two flags of a pair are never both
active during a render. -/
theorem c8_conflicting_config_error (o : Options) (doc : List Char)
    (h : (o.footnotes = true ∧ o.old_footnotes = true) ∨
      (o.subscript = true ∧ o.strikethrough = true)) :
    renderDoc o doc = .error .cannotConfigMath := by
  have hv : validB o = false := by
    rcases h with ⟨ha, hb⟩ | ⟨ha, hb⟩ <;> simp [validB, ha, hb]
  rw [renderDoc]
  simp [hv]

/-- A configuration conflictingly requesting both footnote schemes. -/
def optsConflict : Options :=
  ⟨false, true, true, false, false, false, false, false, false, false, false, false,
    MathCfg.off, CodeCfg.off⟩

/-- C8 witness: requesting both footnote schemes fails. -/
theorem c8_conflicting_config_error_witness :
    renderDoc optsConflict ['a'] = .error PulldownCmarkError.cannotConfigMath :=
  c8_conflicting_config_error optsConflict ['a'] (Or.inl ⟨rfl, rfl⟩)

/-- C9: with old-style footnotes an inline reference whose label has no
definition (label `4` of the example) still renders as a footnote
reference link whose href preserves the original label, while with
new-style footnotes the same reference stays literal text and no such
href is emitted. -/
theorem c9_undefined_reference :
    containsSeg "<sup class=\"footnote-reference\"><a href=\"#4\">3</a></sup>".toList
      (fnPass true c1Doc) = true ∧
    containsSeg "[^4]".toList (fnPass true c1Doc) = false ∧
    containsSeg "[^4]".toList (fnPass false c1Doc) = true ∧
    containsSeg "#4".toList (fnPass false c1Doc) = false ∧
    renderDoc optsOldFootnotes c1Doc = .ok (fnPass true c1Doc) ∧
    renderDoc optsFootnotes c1Doc = .ok (fnPass false c1Doc) :=
  ⟨by decide, by decide, by decide, by decide,
   renderDoc_optsOldFootnotes c1Doc, renderDoc_optsFootnotes c1Doc⟩

/-- C10: with a math callback configured, a single-dollar span invokes
the callback on the delimiter-stripped body with display-mode `false`
and splices its result, and a double-dollar span invokes it with
display-mode `true`. -/
theorem c10_math_callback_modes (b h1 h2 : List Char)
    (f : List Char → Bool → Except (List Char) (List Char))
    (hb : hasChar '$' b = false) (hne : b ≠ [])
    (hf1 : f b false = .ok h1) (hf2 : f b true = .ok h2) :
    renderDoc (mathOnly (MathCfg.callback f)) ('$' :: (b ++ ['$'])) = .ok h1 ∧
    renderDoc (mathOnly (MathCfg.callback f)) ('$' :: '$' :: (b ++ ['$', '$'])) = .ok h2 := by
  constructor
  · rw [renderDoc_mathOnly]
    simp only [mathPassDoc]
    rw [mathScan_inline b hb hne]
    simp [mathJoin, cbHandler, hf1]
  · rw [renderDoc_mathOnly]
    simp only [mathPassDoc]
    rw [mathScan_display b hb hne]
    simp [mathJoin, cbHandler, hf2]

/-- A math callback that tags the body with its display mode. -/
def cbEcho : List Char → Bool → Except (List Char) (List Char) :=
  fun b d => .ok (if d then 'D' :: b else 'I' :: b)

/-- C10 witness: the inline form passes display-mode false and the
display form passes display-mode true, bodies stripped of dollars. -/
theorem c10_math_callback_modes_witness :
    renderDoc (mathOnly (MathCfg.callback cbEcho)) ('$' :: (['x'] ++ ['$'])) =
      .ok ('I' :: ['x']) ∧
    renderDoc (mathOnly (MathCfg.callback cbEcho)) ('$' :: '$' :: (['x'] ++ ['$', '$'])) =
      .ok ('D' :: ['x']) :=
  c10_math_callback_modes ['x'] ('I' :: ['x']) ('D' :: ['x']) cbEcho (by decide)
    (by decide) rfl rfl

end PulldownCmark
